import Mathlib

/-!
Verification development for the `voc_processor` analytics ingestion service
(`analytics-processor-service`).

The Python source is shallowly embedded as follows.

* Python dicts (both the JSON wire objects and the mutable event records that
  flow through the pipeline) become association lists `PyDict` over a value
  type `Val`. `alget`/`alset` mirror `dict.get` / item assignment (replace in
  place, append at end — matching CPython's insertion-order semantics at the
  level of lookups that the code performs).
* `datetime` instants become virtual `Nat` time; all `datetime.utcnow()`
  calls performed during one invocation of a pipeline stage are modelled as a
  single instant `now` passed to that stage.
* Floating-point sentiment scores are integer-valued in the source (a count
  difference), so they are embedded as `Int`; the test `abs(score) >= 1.0`
  becomes `1 ≤ score.natAbs`.
* The module-global annotation cache and the wall clock become explicit
  state threaded through `annotate_nlp`.
* The statement `e["payload"] = e.get("payload", e)` stores a reference to
  the event dict itself inside that same dict.  An association list cannot
  represent the resulting cyclic object, so the marker `Val.vSelf` stands
  for "this very dict, stored as one of its own values"; `json_dumps`
  faithfully fails on it exactly as CPython's `json.dumps` raises
  `ValueError: Circular reference detected` on the cyclic dict.
* The SHA-256 hex digest used as the cache key is injective and
  deterministic, which is all the pipeline relies on; it is modelled by the
  content itself (`sha256_hexdigest := id`).
* Fallible calls return `Except String`, and the nondeterministic outcome of
  the ClickHouse client insert is a parameter `clientFails : Nat → Bool`
  giving the outcome of each numbered attempt.
-/

/-- The values stored in embedded Python dicts: `None`, strings, integer
scores, `datetime` instants (virtual time), the self-reference marker
produced by `e["payload"] = e` (see module docstring), and the empty dict
used as `e.get("payload", {})`'s default. -/
inductive Val where
  | vNull : Val
  | vStr (s : String) : Val
  | vInt (n : Int) : Val
  | vTime (t : Nat) : Val
  | vSelf : Val
  | vEmptyObj : Val
deriving DecidableEq, Repr

/-- A Python dict, embedded as an association list. -/
abbrev PyDict := List (String × Val)

/-- `d.get(k)`: the value of the first (and, under `alset`, only) binding of
`k`, as an `Option`. -/
def alget {α : Type} {β : Type} [DecidableEq α] (d : List (α × β)) (k : α) : Option β :=
  match d with
  | [] => none
  | (k', v) :: rest => if k' = k then some v else alget rest k

/-- `d[k] = v`: replace the binding of `k` in place if present, else append
it (CPython dict assignment preserves insertion order like this). -/
def alset {α : Type} {β : Type} [DecidableEq α] (d : List (α × β)) (k : α) (v : β) :
    List (α × β) :=
  match d with
  | [] => [(k, v)]
  | (k', v') :: rest => if k' = k then (k', v) :: rest else (k', v') :: alset rest k v

/-! ## `nlp/pipeline.py` -/

/-- A value stored in the `SimpleCache`: the dict
`\x7b"sentiment": score, "topic": None\x7d` built by `annotate_nlp`.
`topic` is kept as an `Option String` because the source stores `None`
there (currently always). -/
structure CacheVal where
  sentiment : Int
  topic : Option String
deriving DecidableEq, Repr

/-- The module-global `SimpleCache` (`self._cache` dict), threaded
explicitly. -/
abbrev Cache := List (String × CacheVal)

/-- The SHA-256 hex digest used as the content-addressed cache key
(`sha256(text.encode()).hexdigest()`).  The pipeline relies only on the
digest being a deterministic injective function of the (truncated) text, so
it is modelled by the text itself. -/
def sha256_hexdigest (text : String) : String := text

/-- The fixed positive keyword list of `rule_based_sentiment`. -/
def pos_words : List String := ["good", "great", "thank", "satisfied"]

/-- The fixed negative keyword list of `rule_based_sentiment`. -/
def neg_words : List String := ["bad", "angry", "hate", "not happy", "frustrat"]

/-- Python's substring test `w in lc`. -/
def containsSub (hay w : String) : Bool := decide (w.toList <:+: hay.toList)

/-- `text.lower()`, realized as a character-wise lowering of the string's
character list (Python lowers per character as well for the ASCII keyword
alphabet this scorer compares against). -/
def pyLower (s : String) : String := String.mk (s.data.map Char.toLower)

/-- `rule_based_sentiment`: keyword-count difference over the lower-cased
text.  The Python float result is always integer-valued, embedded as
`Int`. -/
def rule_based_sentiment (text : String) : Int :=
  let lc := pyLower text
  ((pos_words.filter (fun w => containsSub lc w)).length : Int) -
    ((neg_words.filter (fun w => containsSub lc w)).length : Int)

/-- `call_model_batch_sync`: the placeholder batched scoring function, which
scores each text with `rule_based_sentiment`. -/
def call_model_batch_sync (texts : List String) : List Int :=
  texts.map rule_based_sentiment

/-- `(e.get("transcript") or "")[:20000]`: the transcript text extracted
from an event record, truncated to 20000 characters; a missing key, `None`
or any non-string value yields the empty string (Python `or` coerces falsy
values to `""`; non-call events have no `transcript`).  Python slices by
character, so the truncation is realized as a take on the string's
character list. -/
def extractText (e : PyDict) : String :=
  String.mk ((match alget e "transcript" with
    | some (Val.vStr s) => s
    | _ => "").data.take 20000)

/-- `Option String` to the Python value stored for `topic`
(`cached.get("topic")`). -/
def optStr : Option String → Val
  | some s => Val.vStr s
  | none => Val.vNull

/-- The four record mutations shared by every finalization path of
`annotate_nlp`, in source order:
`e["sentiment"] = s; e["topic"] = t; e["processed_at"] = now;`
`e["payload"] = e.get("payload", e)`.  The default branch of the last
assignment stores the dict into itself, represented by `Val.vSelf`. -/
def setAnnot (e : PyDict) (s t : Val) (now : Nat) : PyDict :=
  let e1 := alset e "sentiment" s
  let e2 := alset e1 "topic" t
  let e3 := alset e2 "processed_at" (Val.vTime now)
  alset e3 "payload" ((alget e3 "payload").getD Val.vSelf)

/-- The result of the first `for i, e in enumerate(events)` loop of
`annotate_nlp`.  `events` and `cache` are the mutated list and cache;
`texts` and `idxs` are the source's accumulators for the deferred
low-confidence events; `lookups` records the keys passed to `cache.get`
(one per non-empty-text event), as instrumentation for the no-cache-lookup
property. -/
structure Pass1Out where
  events : List PyDict
  cache : Cache
  texts : List String
  idxs : List (Nat × String)
  lookups : List String
deriving Repr

/-- The first loop of `annotate_nlp`, translated event by event.  `i` is
the running `enumerate` index and the cache is threaded left to right as in
the source. -/
def pass1 (now : Nat) : Nat → Cache → List PyDict → Pass1Out
  | _, c, [] => ⟨[], c, [], [], []⟩
  | i, c, e :: rest =>
    let text := extractText e
    if text = "" then
      let e' := setAnnot e Val.vNull Val.vNull now
      let r := pass1 now (i + 1) c rest
      ⟨e' :: r.events, r.cache, r.texts, r.idxs, r.lookups⟩
    else
      let key := sha256_hexdigest text
      match alget c key with
      | some cv =>
        let e' := setAnnot e (Val.vInt cv.sentiment) (optStr cv.topic) now
        let r := pass1 now (i + 1) c rest
        ⟨e' :: r.events, r.cache, r.texts, r.idxs, key :: r.lookups⟩
      | none =>
        let score := rule_based_sentiment text
        if 1 ≤ score.natAbs then
          let c' := alset c key ⟨score, none⟩
          let e' := setAnnot e (Val.vInt score) Val.vNull now
          let r := pass1 now (i + 1) c' rest
          ⟨e' :: r.events, r.cache, r.texts, r.idxs, key :: r.lookups⟩
        else
          let r := pass1 now (i + 1) c rest
          ⟨e :: r.events, r.cache, text :: r.texts, (i, key) :: r.idxs, key :: r.lookups⟩

/-- The write-back loop `for (i, key), score in zip(idxs, model_scores)` of
`annotate_nlp`: finalize `events[i]` with the model score and cache it. -/
def writeback (now : Nat) : List PyDict → Cache → List ((Nat × String) × Int) →
    List PyDict × Cache
  | es, c, [] => (es, c)
  | es, c, ((i, key), score) :: rest =>
    let e' := setAnnot (es.getD i []) (Val.vInt score) Val.vNull now
    writeback now (es.set i e') (alset c key ⟨score, none⟩) rest

/-- The final `for e in events: if "payload" not in e: e["payload"] = e`
loop. -/
def ensurePayload (es : List PyDict) : List PyDict :=
  es.map (fun e => if (alget e "payload").isSome then e else alset e "payload" Val.vSelf)

/-- The result of `annotate_nlp`: the mutated event list, the cache state,
the `texts` list actually passed to `call_model_batch_sync` (empty when the
`if texts:` guard skipped the call), and the recorded cache lookups. -/
structure AnnotateResult where
  events : List PyDict
  cache : Cache
  submitted : List String
  lookups : List String
deriving Repr

/-- `annotate_nlp(events)`, with the global cache and the wall clock made
explicit. -/
def annotate_nlp (now : Nat) (c : Cache) (events : List PyDict) : AnnotateResult :=
  let p := pass1 now 0 c events
  if p.texts.isEmpty then
    ⟨ensurePayload p.events, p.cache, [], p.lookups⟩
  else
    let model_scores := call_model_batch_sync p.texts
    let wb := writeback now p.events p.cache (p.idxs.zip model_scores)
    ⟨ensurePayload wb.1, wb.2, p.texts, p.lookups⟩

/-! ## `repo/clickhouse_repo.py` -/

/-- `json.dumps` on the values the repo can be asked to serialize.  The
self-reference marker is the cyclic dict built by
`e["payload"] = e.get("payload", e)`; CPython's `json.dumps` raises
`ValueError: Circular reference detected` on it.  A bare `datetime` is not
JSON serializable either, and faithfully raises.  The remaining atoms
serialize normally (string escaping is abstracted). -/
def json_dumps : Val → Except String String
  | Val.vSelf => Except.error "Circular reference detected"
  | Val.vNull => Except.ok "null"
  | Val.vStr s => Except.ok ("\"" ++ s ++ "\"")
  | Val.vInt n => Except.ok (toString n)
  | Val.vTime _ => Except.error "Object of type datetime is not JSON serializable"
  | Val.vEmptyObj => Except.ok "\x7b\x7d"

/-- One tuple appended to `rows` in `insert_events`, in the order the
source builds it. -/
structure Row where
  event_id : String
  tenant_id : Val
  event_type : Val
  ts : Val
  payload : String
  sentiment : Val
  topic : Val
  processed_at : Val
deriving DecidableEq, Repr

/-- Python `str(x)` on the values `str(e.get("event_id"))` can see. -/
def pyStr : Val → String
  | Val.vNull => "None"
  | Val.vStr s => s
  | Val.vInt n => toString n
  | Val.vTime t => toString t
  | Val.vSelf => "self"
  | Val.vEmptyObj => "\x7b\x7d"

/-- The fixed column list of `insert_events`. -/
def clickhouse_columns : List String :=
  ["event_id", "tenant_id", "event_type", "ts", "payload", "sentiment", "topic",
   "processed_at"]

/-- One `rows.append((...))` tuple of `insert_events`, for a single event.
Note the source reads `e.get("ts")` — not the `timestamp` key that parsed
events actually carry — and `e.get("processed_at") or datetime.utcnow()`
(a missing or `None` value defaults to the current instant).  The
serialization of `e.get("payload", \x7b\x7d)` can raise, so the result is
an `Except`. -/
def buildRow (now : Nat) (e : PyDict) : Except String Row :=
  match json_dumps ((alget e "payload").getD Val.vEmptyObj) with
  | Except.error err => Except.error err
  | Except.ok p =>
    Except.ok
      { event_id := pyStr ((alget e "event_id").getD Val.vNull)
        tenant_id := (alget e "tenant_id").getD Val.vNull
        event_type := (alget e "event_type").getD Val.vNull
        ts := (alget e "ts").getD Val.vNull
        payload := p
        sentiment := (alget e "sentiment").getD Val.vNull
        topic := (alget e "topic").getD Val.vNull
        processed_at :=
          match alget e "processed_at" with
          | some Val.vNull => Val.vTime now
          | some v => v
          | none => Val.vTime now }

/-- The `for e in events: rows.append(...)` loop: the first raised
exception aborts the whole call. -/
def buildRows (now : Nat) (events : List PyDict) : Except String (List Row) :=
  match events with
  | [] => Except.ok []
  | e :: rest =>
    match buildRow now e with
    | Except.error err => Except.error err
    | Except.ok r =>
      match buildRows now rest with
      | Except.error err => Except.error err
      | Except.ok rs => Except.ok (r :: rs)

/-- One call of the body of `insert_events` (attempt number `attempt`):
the `if not events: return` guard, row construction, then
`client.insert("voc_events", rows, columns)`, whose transient outcome is
given by `clientFails`.  The second component lists the row batches
actually handed to `client.insert` (empty when no append was issued). -/
def insert_body (clientFails : Nat → Bool) (attempt now : Nat) (events : List PyDict) :
    Except String Unit × List (List Row) :=
  if events.isEmpty then (Except.ok (), [])
  else
    match buildRows now events with
    | Except.error err => (Except.error err, [])
    | Except.ok rows =>
      if clientFails attempt then (Except.error "clickhouse insert failed", [rows])
      else (Except.ok (), [rows])

/-- `tenacity.wait_exponential(min=1, max=10)`: the sleep after failed
attempt number `attempt` is `clamp(2 ^ (attempt - 1), 1, 10)` (tenacity
computes `multiplier * exp_base ** (attempt_number - 1)` and clamps to
`[min, max]`). -/
def backoff_wait (attempt : Nat) : Nat := max 1 (min (2 ^ (attempt - 1)) 10)

/-- The outcome of the retry-wrapped `insert_events`: the surfaced result,
every row batch handed to `client.insert` (including failed attempts), and
the backoff sleeps performed between attempts. -/
structure InsertOut where
  result : Except String Unit
  calls : List (List Row)
  waits : List Nat
deriving Repr

/-- The `@retry(wait=wait_exponential(min=1, max=10), stop=stop_after_attempt(5))`
loop: run the body; on success stop; on failure, if retries remain, sleep
`backoff_wait attempt` and try again, else surface the error.  `remaining`
counts the retries still allowed after the current attempt. -/
def insert_retry_go (clientFails : Nat → Bool) (now : Nat) (events : List PyDict) :
    Nat → Nat → InsertOut
  | attempt, remaining =>
    match insert_body clientFails attempt now events with
    | (Except.ok _, calls) => ⟨Except.ok (), calls, []⟩
    | (Except.error err, calls) =>
      match remaining with
      | 0 => ⟨Except.error err, calls, []⟩
      | r + 1 =>
        let rest := insert_retry_go clientFails now events (attempt + 1) r
        ⟨rest.result, calls ++ rest.calls, backoff_wait attempt :: rest.waits⟩

/-- `ClickHouseRepo.insert_events`, retry decorator included: at most 5
attempts (`stop_after_attempt(5)` is the first attempt plus 4 retries). -/
def insert_events (clientFails : Nat → Bool) (now : Nat) (events : List PyDict) : InsertOut :=
  insert_retry_go clientFails now events 1 4

/-! ## `models/events.py` and `worker.py` -/

/-- A Kafka consumer record as seen by `ConsumerWorker._run`.  `value` is
the JSON object decoded by `json.loads(msg.value)`; `none` models a byte
payload that is not valid JSON (so that `json.loads` raises and the
message is skipped). -/
structure Msg where
  topic : String
  partition : Nat
  offset : Nat
  value : Option PyDict
deriving DecidableEq, Repr

/-- `BaseEvent.parse_obj(data)` followed by `event.dict()` (pydantic v1).
The declared `BaseEvent` fields are validated and kept; every other key of
the incoming object — including the `CallEvent` variant fields such as
`transcript`, since the worker never dispatches on `event_type` to a
variant model — is ignored (pydantic's default `Extra.ignore`) and absent
from `event.dict()`.  UUID and ISO-datetime coercion are abstracted to
shape checks (`event_id` a string, `timestamp` an instant). -/
def BaseEvent_parse_obj (d : PyDict) : Option PyDict :=
  match alget d "event_id", alget d "tenant_id", alget d "timestamp",
      alget d "event_type" with
  | some (Val.vStr eid), some (Val.vStr tid), some (Val.vTime ts), some (Val.vStr et) =>
    some [("event_id", Val.vStr eid), ("tenant_id", Val.vStr tid),
          ("timestamp", Val.vTime ts), ("event_type", Val.vStr et),
          ("metadata", (alget d "metadata").getD Val.vNull)]
  | _, _, _, _ => none

/-- The `offsets` dict built by `_process_batch`:
`for msg in msgs: offsets[(msg.topic, msg.partition)] = msg.offset` —
a plain dict assignment, so the value kept per partition is the offset of
that partition's last message in the batch. -/
def collect_offsets (msgs : List Msg) : List ((String × Nat) × Nat) :=
  msgs.foldl (fun d m => alset d (m.topic, m.partition) m.offset) []

/-- The `commit_map` handed to `consumer.commit`: each collected offset
plus one. -/
def commit_map (msgs : List Msg) : List ((String × Nat) × Nat) :=
  (collect_offsets msgs).map (fun p => (p.1, p.2 + 1))

/-- The externally visible effects of `_process_batch`, in program order:
the call to `repo.insert_events` with its record count, and the offset
commit request. -/
inductive SinkAction where
  | insertInvoked (n : Nat) : SinkAction
  | commitReq (m : List ((String × Nat) × Nat)) : SinkAction
deriving DecidableEq, Repr

/-- The outcome of `_process_batch`. -/
structure ProcOut where
  trace : List SinkAction
  cache : Cache
  error : Option String
deriving Repr

/-- `ConsumerWorker._process_batch`: annotate the batch's event records,
insert them through the retrying sink writer, and only then build and
request the offset commit.  An exception surfaced by `insert_events`
propagates out of the coroutine before the commit statement is reached, so
the failing run's trace carries no commit. -/
def process_batch (clientFails : Nat → Bool) (now : Nat) (c : Cache)
    (batch : List (Msg × PyDict)) : ProcOut :=
  let msgs := batch.map Prod.fst
  let events := batch.map Prod.snd
  let r := annotate_nlp now c events
  match (insert_events clientFails now r.events).result with
  | Except.error err => ⟨[SinkAction.insertInvoked r.events.length], r.cache, some err⟩
  | Except.ok _ =>
    ⟨[SinkAction.insertInvoked r.events.length, SinkAction.commitReq (commit_map msgs)],
      r.cache, none⟩

/-- `BATCH_SIZE` from `worker.py`. -/
def BATCH_SIZE : Nat := 500

/-- `BATCH_FLUSH_SECONDS` from `worker.py` (virtual time units). -/
def BATCH_FLUSH_SECONDS : Nat := 2

/-- The loop state of `ConsumerWorker._run`: the accumulating batch, the
`last_flush` clock reading, and (as instrumentation) the batches flushed so
far, each with the `time.monotonic()` value at which the flush was
triggered. -/
structure LoopState where
  batch : List (Msg × PyDict)
  last_flush : Nat
  flushes : List (Nat × List (Msg × PyDict))
deriving DecidableEq, Repr

/-- One iteration of the `async for msg in self.consumer` body of `_run`,
executed when the consumer yields `msg` at monotonic time `now`: decode and
parse (skipping the message on failure), append to the batch, and flush
when the size or elapsed-time condition holds.  The per-batch semantics of
the `_process_batch` call is given by `process_batch`; here the flushed
batch is recorded and the loop state reset, which is the loop's behavior
when the flush succeeds. -/
def run_step (st : LoopState) (arr : Nat × Msg) : LoopState :=
  let now := arr.1
  let msg := arr.2
  match msg.value.bind BaseEvent_parse_obj with
  | none => st
  | some ev =>
    let batch := st.batch ++ [(msg, ev)]
    if BATCH_SIZE ≤ batch.length ∨ BATCH_FLUSH_SECONDS ≤ now - st.last_flush then
      ⟨[], now, st.flushes ++ [(now, batch)]⟩
    else
      ⟨batch, st.last_flush, st.flushes⟩

/-- `ConsumerWorker._run` up to (but not including) loop exit: the loop
body runs once per message the consumer yields, so the state after the
arrivals listed in `arrivals` is a fold of `run_step`; between arrivals the
coroutine is suspended in `async for` and performs no action, so no flush
can trigger while no message arrives, however much time passes.  `start`
is the `time.monotonic()` reading stored in `last_flush` at loop entry. -/
def run_loop (start : Nat) (arrivals : List (Nat × Msg)) : LoopState :=
  arrivals.foldl run_step ⟨[], start, []⟩

/-- The `if batch: await self._process_batch(batch)` epilogue of `_run`,
executed at loop exit (stop signal or end of stream) at time `stopTime`. -/
def run_shutdown (st : LoopState) (stopTime : Nat) : LoopState :=
  if st.batch.isEmpty then st
  else ⟨[], st.last_flush, st.flushes ++ [(stopTime, st.batch)]⟩

/-! ## Spec-side definitions

Definitions in this section follow the specification's words, for
comparison with the source-derived definitions above. -/

/-- The consumed positions of one partition's messages in a batch, in batch
order. -/
def spec_offsetsOf (msgs : List Msg) (tp : String × Nat) : List Nat :=
  (msgs.filter (fun m => decide ((m.topic, m.partition) = tp))).map Msg.offset

/-- From the spec: "the maximum consumed message position in a batch", per
partition. -/
def spec_maxOffset (msgs : List Msg) (tp : String × Nat) : Nat :=
  (spec_offsetsOf msgs tp).foldr max 0

/-- The record every finalization path of `annotate_nlp` produces for an
input event `e`, given that the cache is coherent: null annotations for
empty text, the deterministic heuristic score otherwise (the cache and the
placeholder model both reproduce `rule_based_sentiment`). -/
def annotSpec (now : Nat) (e : PyDict) : PyDict :=
  let t := extractText e
  if t = "" then setAnnot e Val.vNull Val.vNull now
  else setAnnot e (Val.vInt (rule_based_sentiment t)) Val.vNull now

/-- Cache coherence: every cached entry is the canonical annotation of the
text it is keyed by.  The empty cache at process start is coherent, and
`annotate_nlp` preserves coherence. -/
def Coherent (c : Cache) : Prop :=
  ∀ t cv, alget c (sha256_hexdigest t) = some cv →
    cv = ⟨rule_based_sentiment t, none⟩

/-! ## Concrete inputs used by the counterexample and bug theorems -/

/-- A well-formed `call` event as it appears on the wire, transcript
included. -/
def wireCallEvent : PyDict :=
  [("event_id", Val.vStr "00000000-0000-0000-0000-000000000001"),
   ("tenant_id", Val.vStr "acme"), ("timestamp", Val.vTime 100),
   ("event_type", Val.vStr "call"), ("call_id", Val.vStr "c1"),
   ("transcript", Val.vStr "this was great")]

/-- What `BaseEvent.parse_obj(wireCallEvent).dict()` actually produces. -/
def parsedCallEvent : PyDict :=
  [("event_id", Val.vStr "00000000-0000-0000-0000-000000000001"),
   ("tenant_id", Val.vStr "acme"), ("timestamp", Val.vTime 100),
   ("event_type", Val.vStr "call"), ("metadata", Val.vNull)]

/-- An event record with a serializable preset `payload` and a `timestamp`
field, as used to exhibit the `ts` column bug. -/
def ev5 : PyDict :=
  [("event_id", Val.vStr "e5"), ("tenant_id", Val.vStr "t"),
   ("event_type", Val.vStr "call"), ("timestamp", Val.vTime 42),
   ("payload", Val.vStr "orig"), ("sentiment", Val.vNull),
   ("topic", Val.vNull), ("processed_at", Val.vTime 41)]

/-- A minimal event record whose transcript is the low-confidence text
"meh" (heuristic score 0). -/
def mehEvent : PyDict :=
  [("event_id", Val.vStr "e7"), ("tenant_id", Val.vStr "acme"),
   ("timestamp", Val.vTime 100), ("event_type", Val.vStr "call"),
   ("metadata", Val.vNull), ("transcript", Val.vStr "meh")]

/-- The two same-partition messages, consumed out of position order, used
against the max-offset claim. -/
def msg6a : Msg := ⟨"voc-events", 0, 5, some wireCallEvent⟩

/-- See `msg6a`. -/
def msg6b : Msg := ⟨"voc-events", 0, 3, some wireCallEvent⟩

/-- A single valid message arriving at virtual time 0. -/
def msg4 : Msg := ⟨"voc-events", 0, 0, some wireCallEvent⟩

/-- A second valid message, position 1, arriving later. -/
def msg4b : Msg := ⟨"voc-events", 0, 1, some wireCallEvent⟩

-- Decidable equality for `Except`, needed to evaluate closed statements
-- about the sink writer's results.
deriving instance DecidableEq for Except

/-! ## Lemmas -/

theorem alget_alset_self {α β : Type} [DecidableEq α] (d : List (α × β)) (k : α) (v : β) :
    alget (alset d k v) k = some v := by
  induction d with
  | nil => simp [alget, alset]
  | cons hd tl ih =>
    obtain ⟨k', v'⟩ := hd
    by_cases h : k' = k
    · simp [alget, alset, h]
    · simp [alget, alset, h, ih]

theorem alget_alset_ne {α β : Type} [DecidableEq α] (d : List (α × β)) (k k' : α) (v : β)
    (h : k' ≠ k) : alget (alset d k v) k' = alget d k' := by
  induction d with
  | nil => simp [alget, alset, Ne.symm h]
  | cons hd tl ih =>
    obtain ⟨k0, v0⟩ := hd
    by_cases h0 : k0 = k
    · subst h0
      simp [alget, alset, Ne.symm h]
    · simp only [alset, if_neg h0]
      by_cases h1 : k0 = k'
      · simp [alget, h1]
      · simp [alget, h1, ih]

theorem alget_alset {α β : Type} [DecidableEq α] (d : List (α × β)) (k k' : α) (v : β) :
    alget (alset d k v) k' = if k' = k then some v else alget d k' := by
  by_cases h : k' = k
  · subst h; simp [alget_alset_self]
  · simp [h, alget_alset_ne d k k' v h]

theorem alget_alset_isSome {α β : Type} [DecidableEq α] (d : List (α × β)) (k k' : α) (v : β)
    (h : (alget d k').isSome) : (alget (alset d k v) k').isSome := by
  rw [alget_alset]
  by_cases hk : k' = k <;> simp [hk, h]

theorem Coherent_nil : Coherent [] := by
  intro t cv h
  simp [alget] at h

/-! ## Claim theorems -/

/-- C2 (code bug): the worker parses every message with
`BaseEvent.parse_obj`, never dispatching on `event_type` to the declared
`CallEvent` variant, and pydantic discards undeclared fields — so for a
wire message with `event_type = "call"` carrying a transcript, the parsed
record handed to the Annotator has no `transcript` at all (its extracted
text is empty), contradicting the claim that the call variant's fields are
retained. -/
theorem C2_parse_drops_call_fields :
    BaseEvent_parse_obj wireCallEvent = some parsedCallEvent ∧
    alget wireCallEvent "transcript" = some (Val.vStr "this was great") ∧
    alget wireCallEvent "event_type" = some (Val.vStr "call") ∧
    alget parsedCallEvent "transcript" = none ∧
    extractText parsedCallEvent = "" := by decide

/-- C3 (code bug): `annotate_nlp` executes
`e["payload"] = e.get("payload", e)`, so a record that arrives without a
`payload` key (as every parsed event does) gets the enriched dict itself —
a cyclic reference — as its payload; `json.dumps` then raises
`ValueError: Circular reference detected` inside `insert_events`, so the
serialization neither terminates normally nor yields the original event. -/
theorem C3_payload_is_self_reference :
    alget ((annotate_nlp 5 [] [parsedCallEvent]).events.getD 0 []) "payload" =
      some Val.vSelf ∧
    buildRows 5 (annotate_nlp 5 [] [parsedCallEvent]).events =
      Except.error "Circular reference detected" ∧
    (insert_events (fun _ => false) 5
        (annotate_nlp 5 [] [parsedCallEvent]).events).result =
      Except.error "Circular reference detected" := by
  exact ⟨by decide, by decide, rfl⟩

/-- C5 (code bug): `insert_events` fills the `ts` column (the timestamp
column of the fixed column order) from `e.get("ts")`, but parsed events
carry their instant under the key `timestamp` — so the value placed in the
timestamp column is `None`, not the event's timestamp (42 here). -/
theorem C5_timestamp_column_is_null :
    alget ev5 "timestamp" = some (Val.vTime 42) ∧
    buildRow 9 ev5 = Except.ok
      ⟨"e5", Val.vStr "t", Val.vStr "call", Val.vNull, "\"orig\"", Val.vNull,
        Val.vNull, Val.vTime 41⟩ ∧
    Val.vNull ≠ Val.vTime 42 := by decide

/-- C10: calling the sink writer's insert with an empty record sequence
hits the `if not events: return` guard on the first attempt — it succeeds
with no append issued to the store, no retry and no backoff sleep,
whatever the client's failure behavior. -/
theorem C10_empty_insert_noop (clientFails : Nat → Bool) (now : Nat) :
    insert_events clientFails now [] = ⟨Except.ok (), [], []⟩ := rfl

/-- C4 counterexample: one valid message arrives at time 0 and nothing
else happens.  `_run` is suspended in `async for msg in self.consumer`
between arrivals, so the loop state is a function of the arrivals alone:
after the single message the batch holds one event and the flush list is
empty, and it stays that way however much time passes — the claimed
time-threshold-only flush never occurs. -/
theorem C4_no_flush_without_further_input :
    (run_loop 0 [(0, msg4)]).flushes = [] ∧
    (run_loop 0 [(0, msg4)]).batch.length = 1 := by decide

/-- C6 counterexample: a batch whose partition `("voc-events", 0)`
messages arrive with positions 5 then 3.  The `offsets` dict keeps the
last assignment, so the requested commit is `3 + 1 = 4`, not
`max(5, 3) + 1 = 6` as the claim states for arbitrary batches. -/
theorem C6_commit_is_not_max_plus_one :
    alget (commit_map [msg6a, msg6b]) ("voc-events", 0) = some 4 ∧
    spec_maxOffset [msg6a, msg6b] ("voc-events", 0) + 1 = 6 ∧
    (4 : Nat) ≠ 6 := by decide

/-- C7 counterexample: two events in one batch share the low-confidence
transcript "meh" (heuristic score 0).  Both are appended to `texts`
before `call_model_batch_sync` runs, so the text is submitted to the
model-scoring function twice, refuting "at most once" for same-batch
duplicates. -/
theorem C7_same_batch_text_submitted_twice :
    (annotate_nlp 5 [] [mehEvent, mehEvent]).submitted = ["meh", "meh"] ∧
    rule_based_sentiment "meh" = 0 := by decide

theorem insert_body_of_rows (clientFails : Nat → Bool) (attempt now : Nat)
    (events : List PyDict) (rows : List Row)
    (hne : events ≠ []) (hrows : buildRows now events = Except.ok rows) :
    insert_body clientFails attempt now events =
      if clientFails attempt then (Except.error "clickhouse insert failed", [rows])
      else (Except.ok (), [rows]) := by
  unfold insert_body
  have hemp : events.isEmpty = false := by
    cases events with
    | nil => exact absurd rfl hne
    | cons a l => rfl
  rw [hemp, hrows]
  simp

theorem pass1_length (now : Nat) :
    ∀ (events : List PyDict) (i : Nat) (c : Cache),
      (pass1 now i c events).events.length = events.length := by
  intro events
  induction events with
  | nil => intro i c; rfl
  | cons e rest ih =>
    intro i c
    unfold pass1
    by_cases h : extractText e = ""
    · simp [h, ih]
    · simp only [if_neg h]
      cases halget : alget c (sha256_hexdigest (extractText e)) with
      | some cv => simp [ih]
      | none =>
        by_cases hs : 1 ≤ (rule_based_sentiment (extractText e)).natAbs
        · simp [hs, ih]
        · simp [hs, ih]

theorem writeback_length (now : Nat) :
    ∀ (ps : List ((Nat × String) × Int)) (es : List PyDict) (c : Cache),
      (writeback now es c ps).1.length = es.length := by
  intro ps
  induction ps with
  | nil => intro es c; rfl
  | cons p rest ih =>
    intro es c
    obtain ⟨⟨i, key⟩, score⟩ := p
    unfold writeback
    rw [ih]
    exact List.length_set es i _

theorem annotate_length (now : Nat) (c : Cache) (events : List PyDict) :
    (annotate_nlp now c events).events.length = events.length := by
  unfold annotate_nlp
  by_cases h : (pass1 now 0 c events).texts.isEmpty
  · simp [h, ensurePayload, pass1_length]
  · simp [h, ensurePayload, writeback_length, pass1_length]

/-- C1: for every non-empty batch, `_process_batch` invokes the sink
writer's insert with exactly as many records as the batch holds (the
Annotator preserves list length), and the trace contains the offset-commit
request only when the insert surfaced no error — the commit statement
follows the awaited insert, so a failing insert (retries exhausted)
propagates before any commit is requested. -/
theorem C1_write_before_commit (clientFails : Nat → Bool) (now : Nat) (c : Cache)
    (batch : List (Msg × PyDict)) (hne : batch ≠ []) :
    (process_batch clientFails now c batch).trace.head? =
      some (SinkAction.insertInvoked batch.length) ∧
    ((process_batch clientFails now c batch).error = none →
      (process_batch clientFails now c batch).trace =
        [SinkAction.insertInvoked batch.length,
         SinkAction.commitReq (commit_map (batch.map Prod.fst))]) ∧
    ((process_batch clientFails now c batch).error ≠ none →
      ∀ m, SinkAction.commitReq m ∉ (process_batch clientFails now c batch).trace) := by
  have hlen : (annotate_nlp now c (batch.map Prod.snd)).events.length = batch.length := by
    rw [annotate_length, List.length_map]
  unfold process_batch
  cases hres : (insert_events clientFails now
      (annotate_nlp now c (batch.map Prod.snd)).events).result with
  | error err => simp [hres, hlen]
  | ok u => simp [hres, hlen]

/-- Witness for C1: a concrete one-record batch whose insert succeeds. -/
theorem C1_write_before_commit_witness :
    (process_batch (fun _ => false) 9 [] [(msg4, ev5)]).trace =
      [SinkAction.insertInvoked 1,
       SinkAction.commitReq (commit_map [msg4])] := by
  have h := (C1_write_before_commit (fun _ => false) 9 [] [(msg4, ev5)]
    (by decide)).2.1
  simpa using h (by decide)

/-- C9: with a non-empty batch whose rows serialize, the retry-wrapped
insert behaves exactly as claimed: if all five attempts fail the error
surfaces only then, after backoff sleeps 1, 2, 4, 8 (initial delay 1,
exponentially growing, capped at 10); if some attempt at number m+1 ≤ 5
succeeds, no error escapes and only the first m sleeps occurred. -/
theorem C9_retry_policy (clientFails : Nat → Bool) (now : Nat) (events : List PyDict)
    (rows : List Row) (hne : events ≠ [])
    (hrows : buildRows now events = Except.ok rows) :
    ((∀ k, 1 ≤ k → k ≤ 5 → clientFails k = true) →
      insert_events clientFails now events =
        ⟨Except.error "clickhouse insert failed", List.replicate 5 rows,
          [1, 2, 4, 8]⟩) ∧
    (∀ m, m < 5 → (∀ k, 1 ≤ k → k ≤ m → clientFails k = true) →
      clientFails (m + 1) = false →
      insert_events clientFails now events =
        ⟨Except.ok (), List.replicate (m + 1) rows, List.take m [1, 2, 4, 8]⟩) := by
  have hb : ∀ a, insert_body clientFails a now events =
      if clientFails a then (Except.error "clickhouse insert failed", [rows])
      else (Except.ok (), [rows]) :=
    fun a => insert_body_of_rows clientFails a now events rows hne hrows
  constructor
  · intro hall
    have h1 := hall 1 (by norm_num) (by norm_num)
    have h2 := hall 2 (by norm_num) (by norm_num)
    have h3 := hall 3 (by norm_num) (by norm_num)
    have h4 := hall 4 (by norm_num) (by norm_num)
    have h5 := hall 5 (by norm_num) (by norm_num)
    simp [insert_events, insert_retry_go, hb, h1, h2, h3, h4, h5, backoff_wait,
      List.replicate]
  · intro m hm hfail hsucc
    interval_cases m
    · simp [insert_events, insert_retry_go, hb, hsucc, List.replicate]
    · have h1 := hfail 1 (by norm_num) (by norm_num)
      simp [insert_events, insert_retry_go, hb, h1, hsucc, backoff_wait,
        List.replicate]
    · have h1 := hfail 1 (by norm_num) (by norm_num)
      have h2 := hfail 2 (by norm_num) (by norm_num)
      simp [insert_events, insert_retry_go, hb, h1, h2, hsucc, backoff_wait,
        List.replicate]
    · have h1 := hfail 1 (by norm_num) (by norm_num)
      have h2 := hfail 2 (by norm_num) (by norm_num)
      have h3 := hfail 3 (by norm_num) (by norm_num)
      simp [insert_events, insert_retry_go, hb, h1, h2, h3, hsucc, backoff_wait,
        List.replicate]
    · have h1 := hfail 1 (by norm_num) (by norm_num)
      have h2 := hfail 2 (by norm_num) (by norm_num)
      have h3 := hfail 3 (by norm_num) (by norm_num)
      have h4 := hfail 4 (by norm_num) (by norm_num)
      simp [insert_events, insert_retry_go, hb, h1, h2, h3, h4, hsucc, backoff_wait,
        List.replicate]

/-- Witness for C9: the first two attempts fail, the third succeeds, with
sleeps 1 and 2 in between and no surfaced error. -/
theorem C9_retry_policy_witness :
    insert_events (fun k => decide (k ≤ 2)) 9 [ev5] =
      ⟨Except.ok (),
        List.replicate 3
          [⟨"e5", Val.vStr "t", Val.vStr "call", Val.vNull, "\"orig\"",
            Val.vNull, Val.vNull, Val.vTime 41⟩],
        [1, 2]⟩ := by
  have h := (C9_retry_policy (fun k => decide (k ≤ 2)) 9 [ev5]
    [⟨"e5", Val.vStr "t", Val.vStr "call", Val.vNull, "\"orig\"",
      Val.vNull, Val.vNull, Val.vTime 41⟩]
    (by decide) (by decide)).2 2 (by norm_num)
    (fun k hk1 hk2 => by interval_cases k <;> decide) (by decide)
  simpa using h

theorem alget_map_add_one (l : List ((String × Nat) × Nat)) (tp : String × Nat) :
    alget (l.map (fun p => (p.1, p.2 + 1))) tp = (alget l tp).map (· + 1) := by
  induction l with
  | nil => rfl
  | cons p rest ih =>
    obtain ⟨k, v⟩ := p
    by_cases h : k = tp
    · simp [alget, h]
    · simp [alget, h, ih]

theorem collect_offsets_foldl :
    ∀ (msgs : List Msg) (d : List ((String × Nat) × Nat)) (tp : String × Nat),
      alget (msgs.foldl (fun acc m => alset acc (m.topic, m.partition) m.offset) d) tp =
        (spec_offsetsOf msgs tp).foldl (fun _ x => some x) (alget d tp) := by
  intro msgs
  induction msgs with
  | nil => intro d tp; rfl
  | cons m rest ih =>
    intro d tp
    by_cases h : (m.topic, m.partition) = tp
    · subst h
      simp only [List.foldl_cons]
      rw [ih]
      simp [spec_offsetsOf, List.filter_cons, alget_alset_self]
    · simp only [List.foldl_cons]
      rw [ih, alget_alset_ne _ _ _ _ (Ne.symm h)]
      simp [spec_offsetsOf, List.filter_cons, h]

theorem foldl_some_sorted :
    ∀ (xs : List Nat), xs ≠ [] → List.Sorted (· ≤ ·) xs →
      ∀ (a : Option Nat), xs.foldl (fun _ x => some x) a = some (xs.foldr max 0) := by
  intro xs
  induction xs with
  | nil => intro h; exact absurd rfl h
  | cons x rest ih =>
    intro _ hsort a
    cases rest with
    | nil => simp
    | cons y t =>
      have hxy : x ≤ y := (List.sorted_cons.mp hsort).1 y (by simp)
      have hsort' : List.Sorted (· ≤ ·) (y :: t) := (List.sorted_cons.mp hsort).2
      have hrec := ih (by simp) hsort' (some x)
      simp only [List.foldl_cons] at hrec ⊢
      rw [hrec]
      have hy : y ≤ (y :: t).foldr max 0 := by
        have : (y :: t).foldr max 0 = max y (t.foldr max 0) := rfl
        rw [this]
        exact le_max_left _ _
      have hxM : x ≤ (y :: t).foldr max 0 := le_trans hxy hy
      have hfold : (x :: y :: t).foldr max 0 = max x ((y :: t).foldr max 0) := rfl
      rw [hfold, Nat.max_eq_right hxM]

theorem foldl_some_getLast :
    ∀ (xs : List Nat), xs ≠ [] →
      ∀ (a : Option Nat), xs.foldl (fun _ x => some x) a = xs.getLast? := by
  intro xs
  induction xs with
  | nil => intro h; exact absurd rfl h
  | cons x rest ih =>
    intro _ a
    cases rest with
    | nil => simp
    | cons y t =>
      have hrec := ih (by simp) (some x)
      simp only [List.foldl_cons] at hrec ⊢
      rw [hrec, List.getLast?_cons_cons]

/-- C4 (amended): the elapsed-time condition is evaluated only when a
message is consumed.  A buffered event is flushed when the next message
arrives at least `BATCH_FLUSH_SECONDS` after the last flush — the flush
then includes that triggering message — and a batch pending at loop exit
is flushed by the shutdown epilogue; with no further input, no flush
happens (see the counterexample theorem). -/
theorem C4_flush_waits_for_next_message (t0 t1 stopT : Nat) (m0 m1 : Msg)
    (e0 e1 : PyDict)
    (hp0 : m0.value.bind BaseEvent_parse_obj = some e0)
    (hp1 : m1.value.bind BaseEvent_parse_obj = some e1)
    (h2 : BATCH_FLUSH_SECONDS ≤ t1 - t0) :
    run_loop t0 [(t0, m0), (t1, m1)] = ⟨[], t1, [(t1, [(m0, e0), (m1, e1)])]⟩ ∧
    run_shutdown (run_loop t0 [(t0, m0)]) stopT = ⟨[], t0, [(stopT, [(m0, e0)])]⟩ := by
  constructor
  · simp [run_loop, run_step, hp0, hp1, BATCH_SIZE, BATCH_FLUSH_SECONDS] at h2 ⊢
    simp [h2]
  · simp [run_loop, run_step, run_shutdown, hp0, BATCH_SIZE, BATCH_FLUSH_SECONDS]

/-- Witness for the amended C4: one event buffered at time 0, the next
message at time 3 triggers the flush of both; alternatively shutdown at
time 7 flushes the pending singleton. -/
theorem C4_flush_waits_for_next_message_witness :
    run_loop 0 [(0, msg4), (3, msg4b)] =
      ⟨[], 3, [(3, [(msg4, parsedCallEvent), (msg4b, parsedCallEvent)])]⟩ ∧
    run_shutdown (run_loop 0 [(0, msg4)]) 7 =
      ⟨[], 0, [(7, [(msg4, parsedCallEvent)])]⟩ :=
  C4_flush_waits_for_next_message 0 3 7 msg4 msg4b parsedCallEvent parsedCallEvent
    (by decide) (by decide) (by decide)

/-- C6 (amended): the offset requested for commit is 1 plus the position
of the partition's last message in the batch (the `offsets` dict keeps
the last assignment); when the partition's messages appear in
nondecreasing position order — as they do for an event-log consumer —
this equals 1 plus the maximum position, recovering the claim. -/
theorem C6_commit_is_last_offset_plus_one (msgs : List Msg) (tp : String × Nat)
    (hmem : ∃ m ∈ msgs, (m.topic, m.partition) = tp)
    (hsorted : List.Sorted (· ≤ ·) (spec_offsetsOf msgs tp)) :
    alget (commit_map msgs) tp = (spec_offsetsOf msgs tp).getLast?.map (· + 1) ∧
    alget (commit_map msgs) tp = some (spec_maxOffset msgs tp + 1) := by
  have hne : spec_offsetsOf msgs tp ≠ [] := by
    obtain ⟨m, hm, htp⟩ := hmem
    have : m.offset ∈ spec_offsetsOf msgs tp :=
      List.mem_map_of_mem _ (List.mem_filter.mpr ⟨hm, by simp [htp]⟩)
    exact List.ne_nil_of_mem this
  have hbase : alget (commit_map msgs) tp =
      ((spec_offsetsOf msgs tp).foldl (fun _ x => some x) none).map (· + 1) := by
    unfold commit_map collect_offsets
    rw [alget_map_add_one, collect_offsets_foldl]
    rfl
  constructor
  · rw [hbase, foldl_some_getLast _ hne]
  · rw [hbase, foldl_some_sorted _ hne hsorted]
    rfl

/-- Witness for the amended C6: an in-order batch with positions 0 then 1
on one partition commits offset 2. -/
theorem C6_commit_is_last_offset_plus_one_witness :
    alget (commit_map [msg4, msg4b]) ("voc-events", 0) = some 2 := by
  have h := (C6_commit_is_last_offset_plus_one [msg4, msg4b] ("voc-events", 0)
    (by decide) (by decide)).2
  simpa using h

theorem Coherent_alset (c : Cache) (hc : Coherent c) (t : String) :
    Coherent (alset c (sha256_hexdigest t) ⟨rule_based_sentiment t, none⟩) := by
  intro u cu hu
  rw [alget_alset] at hu
  by_cases h : sha256_hexdigest u = sha256_hexdigest t
  · have hut : u = t := h
    rw [if_pos h] at hu
    cases hu
    rw [hut]
  · rw [if_neg h] at hu
    exact hc u cu hu

theorem pass1_cache_mono (now : Nat) :
    ∀ (events : List PyDict) (i : Nat) (c : Cache) (k : String) (v : CacheVal),
      alget c k = some v → alget (pass1 now i c events).cache k = some v := by
  intro events
  induction events with
  | nil => intro i c k v hv; exact hv
  | cons e rest ih =>
    intro i c k v hv
    unfold pass1
    by_cases h : extractText e = ""
    · simp only [if_pos h]
      exact ih (i + 1) c k v hv
    · simp only [if_neg h]
      cases halget : alget c (sha256_hexdigest (extractText e)) with
      | some cv =>
        simp only []
        exact ih (i + 1) c k v hv
      | none =>
        by_cases hs : 1 ≤ (rule_based_sentiment (extractText e)).natAbs
        · simp only [if_pos hs]
          refine ih (i + 1) _ k v ?_
          rw [alget_alset]
          by_cases hk : k = sha256_hexdigest (extractText e)
          · rw [hk] at hv
            rw [hv] at halget
            cases halget
          · rw [if_neg hk]
            exact hv
        · simp only [if_neg hs]
          exact ih (i + 1) c k v hv

theorem pass1_coherent (now : Nat) :
    ∀ (events : List PyDict) (i : Nat) (c : Cache), Coherent c →
      Coherent (pass1 now i c events).cache := by
  intro events
  induction events with
  | nil => intro i c hc; exact hc
  | cons e rest ih =>
    intro i c hc
    unfold pass1
    by_cases h : extractText e = ""
    · simp only [if_pos h]
      exact ih (i + 1) c hc
    · simp only [if_neg h]
      cases halget : alget c (sha256_hexdigest (extractText e)) with
      | some cv => exact ih (i + 1) c hc
      | none =>
        by_cases hs : 1 ≤ (rule_based_sentiment (extractText e)).natAbs
        · simp only [if_pos hs]
          exact ih (i + 1) _ (Coherent_alset c hc (extractText e))
        · simp only [if_neg hs]
          exact ih (i + 1) c hc

theorem pass1_idxs_snd (now : Nat) :
    ∀ (events : List PyDict) (i : Nat) (c : Cache),
      (pass1 now i c events).idxs.map Prod.snd = (pass1 now i c events).texts := by
  intro events
  induction events with
  | nil => intro i c; rfl
  | cons e rest ih =>
    intro i c
    unfold pass1
    by_cases h : extractText e = ""
    · simp only [if_pos h]
      exact ih (i + 1) c
    · simp only [if_neg h]
      cases halget : alget c (sha256_hexdigest (extractText e)) with
      | some cv => exact ih (i + 1) c
      | none =>
        by_cases hs : 1 ≤ (rule_based_sentiment (extractText e)).natAbs
        · simp only [if_pos hs]
          exact ih (i + 1) _
        · simp only [if_neg hs]
          simp only [List.map_cons]
          rw [ih (i + 1) c]
          rfl

theorem pass1_texts_fresh (now : Nat) :
    ∀ (events : List PyDict) (i : Nat) (c : Cache) (t : String),
      t ∈ (pass1 now i c events).texts → alget c (sha256_hexdigest t) = none := by
  intro events
  induction events with
  | nil => intro i c t ht; exact absurd ht (by simp [pass1])
  | cons e rest ih =>
    intro i c t ht
    unfold pass1 at ht
    by_cases h : extractText e = ""
    · simp only [if_pos h] at ht
      exact ih (i + 1) c t ht
    · simp only [if_neg h] at ht
      cases halget : alget c (sha256_hexdigest (extractText e)) with
      | some cv =>
        rw [halget] at ht
        exact ih (i + 1) c t ht
      | none =>
        rw [halget] at ht
        by_cases hs : 1 ≤ (rule_based_sentiment (extractText e)).natAbs
        · simp only [if_pos hs] at ht
          have := ih (i + 1) _ t ht
          rw [alget_alset] at this
          by_cases hk : sha256_hexdigest t = sha256_hexdigest (extractText e)
          · rw [if_pos hk] at this
            cases this
          · rw [if_neg hk] at this
            exact this
        · simp only [if_neg hs] at ht
          rcases List.mem_cons.mp ht with heq | hmem
          · subst heq
            exact halget
          · exact ih (i + 1) c t hmem

theorem pass1_lookups (now : Nat) :
    ∀ (events : List PyDict) (i : Nat) (c : Cache),
      (pass1 now i c events).lookups =
        (events.map extractText).filter (fun t => !(t == "")) := by
  intro events
  induction events with
  | nil => intro i c; rfl
  | cons e rest ih =>
    intro i c
    unfold pass1
    by_cases h : extractText e = ""
    · simp only [if_pos h, List.map_cons, List.filter_cons]
      rw [ih (i + 1) c]
      simp [h]
    · simp only [if_neg h, List.map_cons, List.filter_cons]
      cases halget : alget c (sha256_hexdigest (extractText e)) with
      | some cv =>
        simp only []
        rw [ih (i + 1) c]
        simp [h, sha256_hexdigest]
      | none =>
        by_cases hs : 1 ≤ (rule_based_sentiment (extractText e)).natAbs
        · simp only [if_pos hs]
          rw [ih (i + 1) _]
          simp [h, sha256_hexdigest]
        · simp only [if_neg hs]
          rw [ih (i + 1) c]
          simp [h, sha256_hexdigest]

theorem pass1_nil (now i : Nat) (c : Cache) : pass1 now i c [] = ⟨[], c, [], [], []⟩ := rfl

theorem pass1_cons_empty (now i : Nat) (c : Cache) (e : PyDict) (rest : List PyDict)
    (h : extractText e = "") :
    pass1 now i c (e :: rest) =
      ⟨setAnnot e Val.vNull Val.vNull now :: (pass1 now (i + 1) c rest).events,
        (pass1 now (i + 1) c rest).cache, (pass1 now (i + 1) c rest).texts,
        (pass1 now (i + 1) c rest).idxs, (pass1 now (i + 1) c rest).lookups⟩ := by
  conv_lhs => rw [pass1]
  simp only [if_pos h]

theorem pass1_cons_hit (now i : Nat) (c : Cache) (e : PyDict) (rest : List PyDict)
    (cv : CacheVal) (h : ¬extractText e = "")
    (halget : alget c (sha256_hexdigest (extractText e)) = some cv) :
    pass1 now i c (e :: rest) =
      ⟨setAnnot e (Val.vInt cv.sentiment) (optStr cv.topic) now ::
          (pass1 now (i + 1) c rest).events,
        (pass1 now (i + 1) c rest).cache, (pass1 now (i + 1) c rest).texts,
        (pass1 now (i + 1) c rest).idxs,
        sha256_hexdigest (extractText e) :: (pass1 now (i + 1) c rest).lookups⟩ := by
  conv_lhs => rw [pass1]
  simp only [if_neg h, halget]

theorem pass1_cons_heur (now i : Nat) (c : Cache) (e : PyDict) (rest : List PyDict)
    (h : ¬extractText e = "")
    (halget : alget c (sha256_hexdigest (extractText e)) = none)
    (hs : 1 ≤ (rule_based_sentiment (extractText e)).natAbs) :
    pass1 now i c (e :: rest) =
      ⟨setAnnot e (Val.vInt (rule_based_sentiment (extractText e))) Val.vNull now ::
          (pass1 now (i + 1)
            (alset c (sha256_hexdigest (extractText e))
              ⟨rule_based_sentiment (extractText e), none⟩) rest).events,
        (pass1 now (i + 1)
          (alset c (sha256_hexdigest (extractText e))
            ⟨rule_based_sentiment (extractText e), none⟩) rest).cache,
        (pass1 now (i + 1)
          (alset c (sha256_hexdigest (extractText e))
            ⟨rule_based_sentiment (extractText e), none⟩) rest).texts,
        (pass1 now (i + 1)
          (alset c (sha256_hexdigest (extractText e))
            ⟨rule_based_sentiment (extractText e), none⟩) rest).idxs,
        sha256_hexdigest (extractText e) ::
          (pass1 now (i + 1)
            (alset c (sha256_hexdigest (extractText e))
              ⟨rule_based_sentiment (extractText e), none⟩) rest).lookups⟩ := by
  conv_lhs => rw [pass1]
  simp only [if_neg h, halget, if_pos hs]

theorem pass1_cons_defer (now i : Nat) (c : Cache) (e : PyDict) (rest : List PyDict)
    (h : ¬extractText e = "")
    (halget : alget c (sha256_hexdigest (extractText e)) = none)
    (hs : ¬1 ≤ (rule_based_sentiment (extractText e)).natAbs) :
    pass1 now i c (e :: rest) =
      ⟨e :: (pass1 now (i + 1) c rest).events, (pass1 now (i + 1) c rest).cache,
        extractText e :: (pass1 now (i + 1) c rest).texts,
        (i, sha256_hexdigest (extractText e)) :: (pass1 now (i + 1) c rest).idxs,
        sha256_hexdigest (extractText e) :: (pass1 now (i + 1) c rest).lookups⟩ := by
  conv_lhs => rw [pass1]
  simp only [if_neg h, halget, if_neg hs]

theorem pass1_idxs_mem (now : Nat) :
    ∀ (events : List PyDict) (i : Nat) (c : Cache) (jk : Nat × String),
      jk ∈ (pass1 now i c events).idxs →
      i ≤ jk.1 ∧ jk.1 - i < events.length ∧
      (pass1 now i c events).events.getD (jk.1 - i) [] = events.getD (jk.1 - i) [] ∧
      jk.2 = extractText (events.getD (jk.1 - i) []) ∧
      extractText (events.getD (jk.1 - i) []) ≠ "" ∧
      rule_based_sentiment (extractText (events.getD (jk.1 - i) [])) = 0 := by
  intro events
  induction events with
  | nil => intro i c jk hjk; exact absurd hjk (by simp [pass1])
  | cons e rest ih =>
    intro i c jk hjk
    have step : ∀ (c' : Cache) (e' : PyDict), jk ∈ (pass1 now (i + 1) c' rest).idxs →
        i ≤ jk.1 ∧ jk.1 - i < (e :: rest).length ∧
        (e' :: (pass1 now (i + 1) c' rest).events).getD (jk.1 - i) [] =
          (e :: rest).getD (jk.1 - i) [] ∧
        jk.2 = extractText ((e :: rest).getD (jk.1 - i) []) ∧
        extractText ((e :: rest).getD (jk.1 - i) []) ≠ "" ∧
        rule_based_sentiment (extractText ((e :: rest).getD (jk.1 - i) [])) = 0 := by
      intro c' e' hmem
      obtain ⟨h1, h2, h3, h4, h5, h6⟩ := ih (i + 1) c' jk hmem
      have hpos : jk.1 - i = (jk.1 - (i + 1)) + 1 := by omega
      refine ⟨by omega, by simp [hpos]; omega, ?_, ?_, ?_, ?_⟩
      · rw [hpos]
        simpa using h3
      · rw [hpos]
        simpa using h4
      · rw [hpos]
        simpa using h5
      · rw [hpos]
        simpa using h6
    by_cases h : extractText e = ""
    · rw [pass1_cons_empty now i c e rest h] at hjk ⊢
      exact step c _ hjk
    · cases halget : alget c (sha256_hexdigest (extractText e)) with
      | some cv =>
        rw [pass1_cons_hit now i c e rest cv h halget] at hjk ⊢
        exact step c _ hjk
      | none =>
        by_cases hs : 1 ≤ (rule_based_sentiment (extractText e)).natAbs
        · rw [pass1_cons_heur now i c e rest h halget hs] at hjk ⊢
          exact step _ _ hjk
        · rw [pass1_cons_defer now i c e rest h halget hs] at hjk ⊢
          rcases List.mem_cons.mp hjk with heq | hmem
          · subst heq
            have hz : rule_based_sentiment (extractText e) = 0 := by
              have : (rule_based_sentiment (extractText e)).natAbs = 0 := by omega
              exact Int.natAbs_eq_zero.mp this
            refine ⟨le_refl i, by simp, by simp, ?_, by simpa using h, by simpa using hz⟩
            simp [sha256_hexdigest]
          · exact step c _ hmem

theorem pass1_idxs_sorted (now : Nat) :
    ∀ (events : List PyDict) (i : Nat) (c : Cache),
      List.Pairwise (fun a b => a.1 < b.1) (pass1 now i c events).idxs := by
  intro events
  induction events with
  | nil => intro i c; simp [pass1]
  | cons e rest ih =>
    intro i c
    by_cases h : extractText e = ""
    · rw [pass1_cons_empty now i c e rest h]
      exact ih (i + 1) c
    · cases halget : alget c (sha256_hexdigest (extractText e)) with
      | some cv =>
        rw [pass1_cons_hit now i c e rest cv h halget]
        exact ih (i + 1) c
      | none =>
        by_cases hs : 1 ≤ (rule_based_sentiment (extractText e)).natAbs
        · rw [pass1_cons_heur now i c e rest h halget hs]
          exact ih (i + 1) _
        · rw [pass1_cons_defer now i c e rest h halget hs]
          refine List.Pairwise.cons ?_ (ih (i + 1) c)
          intro b hb
          have := (pass1_idxs_mem now rest (i + 1) c b hb).1
          omega

theorem pass1_nondeferred (now : Nat) :
    ∀ (events : List PyDict) (i : Nat) (c : Cache), Coherent c →
      ∀ j, j < events.length →
        (i + j) ∉ (pass1 now i c events).idxs.map Prod.fst →
        (pass1 now i c events).events.getD j [] = annotSpec now (events.getD j []) := by
  intro events
  induction events with
  | nil => intro i c hc j hj; simp at hj
  | cons e rest ih =>
    intro i c hc j hj hnot
    by_cases h : extractText e = ""
    · rw [pass1_cons_empty now i c e rest h] at hnot ⊢
      cases j with
      | zero => simp [annotSpec, h]
      | succ j =>
        have hsh : i + (j + 1) = (i + 1) + j := by omega
        rw [hsh] at hnot
        simpa using ih (i + 1) c hc j (by simpa using hj) hnot
    · cases halget : alget c (sha256_hexdigest (extractText e)) with
      | some cv =>
        rw [pass1_cons_hit now i c e rest cv h halget] at hnot ⊢
        cases j with
        | zero =>
          have hcv := hc (extractText e) cv halget
          simp [annotSpec, h, hcv, optStr]
        | succ j =>
          have hsh : i + (j + 1) = (i + 1) + j := by omega
          rw [hsh] at hnot
          simpa using ih (i + 1) c hc j (by simpa using hj) hnot
      | none =>
        by_cases hs : 1 ≤ (rule_based_sentiment (extractText e)).natAbs
        · rw [pass1_cons_heur now i c e rest h halget hs] at hnot ⊢
          cases j with
          | zero => simp [annotSpec, h]
          | succ j =>
            have hsh : i + (j + 1) = (i + 1) + j := by omega
            rw [hsh] at hnot
            simpa using ih (i + 1) _ (Coherent_alset c hc (extractText e)) j
              (by simpa using hj) hnot
        · rw [pass1_cons_defer now i c e rest h halget hs] at hnot ⊢
          cases j with
          | zero =>
            exact absurd (by simp) hnot
          | succ j =>
            have hnot' : (i + 1) + j ∉ (pass1 now (i + 1) c rest).idxs.map Prod.fst := by
              intro hmem
              exact hnot (by simp only [List.map_cons]; right; rw [show i + (j + 1) = (i + 1) + j by omega]; exact hmem)
            simpa using ih (i + 1) c hc j (by simpa using hj) hnot'

theorem pass1_covered (now : Nat) :
    ∀ (events : List PyDict) (i : Nat) (c : Cache) (j : Nat), j < events.length →
      extractText (events.getD j []) ≠ "" →
      (alget (pass1 now i c events).cache
        (sha256_hexdigest (extractText (events.getD j [])))).isSome ∨
      extractText (events.getD j []) ∈ (pass1 now i c events).texts := by
  intro events
  induction events with
  | nil => intro i c j hj hne; simp at hj
  | cons e rest ih =>
    intro i c j hj hne
    by_cases h : extractText e = ""
    · rw [pass1_cons_empty now i c e rest h]
      cases j with
      | zero => exact absurd (by simpa using h) (by simpa using hne)
      | succ j => simpa using ih (i + 1) c j (by simpa using hj) (by simpa using hne)
    · cases halget : alget c (sha256_hexdigest (extractText e)) with
      | some cv =>
        rw [pass1_cons_hit now i c e rest cv h halget]
        cases j with
        | zero =>
          left
          have := pass1_cache_mono now rest (i + 1) c _ cv halget
          simp only [List.getD_cons_zero]
          rw [this]
          rfl
        | succ j => simpa using ih (i + 1) c j (by simpa using hj) (by simpa using hne)
      | none =>
        by_cases hs : 1 ≤ (rule_based_sentiment (extractText e)).natAbs
        · rw [pass1_cons_heur now i c e rest h halget hs]
          cases j with
          | zero =>
            left
            have hset := alget_alset_self c (sha256_hexdigest (extractText e))
              (⟨rule_based_sentiment (extractText e), none⟩ : CacheVal)
            have := pass1_cache_mono now rest (i + 1) _ _ _ hset
            simp only [List.getD_cons_zero]
            rw [this]
            rfl
          | succ j => simpa using ih (i + 1) _ j (by simpa using hj) (by simpa using hne)
        · rw [pass1_cons_defer now i c e rest h halget hs]
          cases j with
          | zero =>
            right
            simp
          | succ j =>
            simp only [List.getD_cons_succ]
            rcases ih (i + 1) c j (by simpa using hj) (by simpa using hne) with hl | hr
            · exact Or.inl hl
            · exact Or.inr (List.mem_cons_of_mem _ hr)

theorem writeback_cache_mono (now : Nat) :
    ∀ (ps : List ((Nat × String) × Int)) (es : List PyDict) (c : Cache) (k : String),
      (alget c k).isSome → (alget (writeback now es c ps).2 k).isSome := by
  intro ps
  induction ps with
  | nil => intro es c k hk; exact hk
  | cons pr rest ih =>
    intro es c k hk
    obtain ⟨⟨i0, key⟩, score⟩ := pr
    unfold writeback
    exact ih _ _ k (alget_alset_isSome c key k _ hk)

theorem writeback_cache_hasKeys (now : Nat) :
    ∀ (ps : List ((Nat × String) × Int)) (es : List PyDict) (c : Cache),
      ∀ pr ∈ ps, (alget (writeback now es c ps).2 pr.1.2).isSome := by
  intro ps
  induction ps with
  | nil => intro es c pr hpr; exact absurd hpr (by simp)
  | cons pr0 rest ih =>
    intro es c pr hpr
    obtain ⟨⟨i0, key⟩, score⟩ := pr0
    unfold writeback
    rcases List.mem_cons.mp hpr with heq | hmem
    · subst heq
      refine writeback_cache_mono now rest _ _ _ ?_
      simp [alget_alset_self]
    · exact ih _ _ pr hmem

theorem writeback_coherent (now : Nat) :
    ∀ (ps : List ((Nat × String) × Int)) (es : List PyDict) (c : Cache),
      Coherent c → (∀ pr ∈ ps, pr.2 = rule_based_sentiment pr.1.2) →
      Coherent (writeback now es c ps).2 := by
  intro ps
  induction ps with
  | nil => intro es c hc _; exact hc
  | cons pr0 rest ih =>
    intro es c hc hcanon
    obtain ⟨⟨i0, key⟩, score⟩ := pr0
    unfold writeback
    have hscore : score = rule_based_sentiment key :=
      hcanon ((i0, key), score) (List.mem_cons_self _ _)
    refine ih _ _ (?_) (fun pr hpr => hcanon pr (List.mem_cons_of_mem _ hpr))
    rw [hscore]
    exact Coherent_alset c hc key

theorem writeback_events_notmem (now : Nat) :
    ∀ (ps : List ((Nat × String) × Int)) (es : List PyDict) (c : Cache) (j : Nat),
      j ∉ ps.map (fun pr => pr.1.1) → ((writeback now es c ps).1)[j]? = es[j]? := by
  intro ps
  induction ps with
  | nil => intro es c j _; rfl
  | cons pr0 rest ih =>
    intro es c j hj
    obtain ⟨⟨i0, key⟩, score⟩ := pr0
    unfold writeback
    have hne : i0 ≠ j := by
      intro heq
      exact hj (by simp [heq])
    have hrest : j ∉ rest.map (fun pr => pr.1.1) := by
      intro hmem
      exact hj (by simp only [List.map_cons]; exact List.mem_cons_of_mem _ hmem)
    rw [ih _ _ j hrest]
    exact List.getElem?_set_ne hne

theorem writeback_events_mem (now : Nat) :
    ∀ (ps : List ((Nat × String) × Int)) (es : List PyDict) (c : Cache),
      List.Pairwise (fun a b => a.1.1 < b.1.1) ps →
      ∀ pr ∈ ps, pr.1.1 < es.length →
      ((writeback now es c ps).1)[pr.1.1]? =
        some (setAnnot (es.getD pr.1.1 []) (Val.vInt pr.2) Val.vNull now) := by
  intro ps
  induction ps with
  | nil => intro es c _ pr hpr; exact absurd hpr (by simp)
  | cons pr0 rest ih =>
    intro es c hpw pr hpr hlt
    obtain ⟨⟨i0, key⟩, score⟩ := pr0
    obtain ⟨⟨j1, k1⟩, s1⟩ := pr
    unfold writeback
    rcases List.mem_cons.mp hpr with heq | hmem
    · cases heq
      have hnot : i0 ∉ rest.map (fun pr => pr.1.1) := by
        intro hmem
        obtain ⟨b, hb, hbeq⟩ := List.mem_map.mp hmem
        have hlt0 : i0 < b.1.1 := by simpa using (List.pairwise_cons.mp hpw).1 b hb
        omega
      rw [writeback_events_notmem now rest _ _ _ hnot]
      have hi0 : i0 < es.length := by simpa using hlt
      simpa using List.getElem?_set_self hi0
    · have hgt : i0 < j1 := by simpa using (List.pairwise_cons.mp hpw).1 _ hmem
      have hlt' : (((j1, k1), s1) : (Nat × String) × Int).1.1 <
          (es.set i0 (setAnnot (es.getD i0 []) (Val.vInt score) Val.vNull now)).length := by
        simpa using hlt
      rw [ih _ _ (List.pairwise_cons.mp hpw).2 _ hmem hlt']
      have hgetD : (es.set i0 (setAnnot (es.getD i0 []) (Val.vInt score) Val.vNull now)).getD
          j1 [] = es.getD j1 [] := by
        rw [List.getD_eq_getElem?_getD, List.getElem?_set_ne (by omega : i0 ≠ j1),
          ← List.getD_eq_getElem?_getD]
      simp only [] at hgetD ⊢
      rw [hgetD]

theorem zip_map_self {α β : Type} (l : List α) (g : α → β) :
    l.zip (l.map g) = l.map (fun a => (a, g a)) := by
  induction l with
  | nil => rfl
  | cons x xs ih => simp [ih]

theorem getElem?_eq_some_getD {α : Type} (l : List α) (d : α) (n : Nat)
    (h : n < l.length) : l[n]? = some (l.getD n d) := by
  rw [List.getD_eq_getElem?_getD, List.getElem?_eq_getElem h]
  rfl

theorem ensure_annotSpec (now : Nat) (e : PyDict) :
    (if (alget (annotSpec now e) "payload").isSome then annotSpec now e
     else alset (annotSpec now e) "payload" Val.vSelf) = annotSpec now e := by
  have hsome : (alget (annotSpec now e) "payload").isSome := by
    unfold annotSpec setAnnot
    by_cases h : extractText e = "" <;> simp [h, alget_alset_self]
  rw [if_pos hsome]

theorem annotate_events_if_empty (now : Nat) (c : Cache) (events : List PyDict)
    (hte : (pass1 now 0 c events).texts.isEmpty) :
    annotate_nlp now c events =
      ⟨ensurePayload (pass1 now 0 c events).events, (pass1 now 0 c events).cache,
        [], (pass1 now 0 c events).lookups⟩ := by
  unfold annotate_nlp
  rw [if_pos hte]

theorem annotate_events_if_nonempty (now : Nat) (c : Cache) (events : List PyDict)
    (hte : ¬(pass1 now 0 c events).texts.isEmpty) :
    annotate_nlp now c events =
      ⟨ensurePayload (writeback now (pass1 now 0 c events).events
          (pass1 now 0 c events).cache
          ((pass1 now 0 c events).idxs.zip
            (call_model_batch_sync (pass1 now 0 c events).texts))).1,
        (writeback now (pass1 now 0 c events).events (pass1 now 0 c events).cache
          ((pass1 now 0 c events).idxs.zip
            (call_model_batch_sync (pass1 now 0 c events).texts))).2,
        (pass1 now 0 c events).texts, (pass1 now 0 c events).lookups⟩ := by
  unfold annotate_nlp
  rw [if_neg hte]

theorem annotate_events_spec (now : Nat) (c : Cache) (events : List PyDict)
    (hc : Coherent c) :
    (annotate_nlp now c events).events = events.map (annotSpec now) := by
  have hlen : (pass1 now 0 c events).events.length = events.length :=
    pass1_length now events 0 c
  by_cases hte : (pass1 now 0 c events).texts.isEmpty
  · rw [annotate_events_if_empty now c events hte]
    have hidxnil : (pass1 now 0 c events).idxs = [] := by
      have h4 := pass1_idxs_snd now events 0 c
      rw [List.isEmpty_iff] at hte
      rw [hte] at h4
      exact List.map_eq_nil_iff.mp h4
    apply List.ext_getElem?
    intro n
    by_cases hn : n < events.length
    · rw [ensurePayload, List.getElem?_map, List.getElem?_map,
        getElem?_eq_some_getD _ ([] : PyDict) n (by omega),
        getElem?_eq_some_getD _ ([] : PyDict) n hn]
      have hnd := pass1_nondeferred now events 0 c hc n hn (by simp [hidxnil])
      simp only [Option.map_some']
      rw [hnd, ensure_annotSpec]
    · rw [ensurePayload, List.getElem?_map, List.getElem?_map,
        List.getElem?_eq_none (by omega), List.getElem?_eq_none (by omega)]
      rfl
  · rw [annotate_events_if_nonempty now c events hte]
    have hzip : (pass1 now 0 c events).idxs.zip
        (call_model_batch_sync (pass1 now 0 c events).texts) =
        (pass1 now 0 c events).idxs.map
          (fun jk => (jk, rule_based_sentiment jk.2)) := by
      unfold call_model_batch_sync
      rw [← pass1_idxs_snd now events 0 c, List.map_map]
      exact zip_map_self _ _
    rw [hzip]
    have hpw : List.Pairwise (fun a b => a.1.1 < b.1.1)
        ((pass1 now 0 c events).idxs.map (fun jk => (jk, rule_based_sentiment jk.2))) := by
      rw [List.pairwise_map]
      exact pass1_idxs_sorted now events 0 c
    have hwlen : (writeback now (pass1 now 0 c events).events (pass1 now 0 c events).cache
        ((pass1 now 0 c events).idxs.map (fun jk => (jk, rule_based_sentiment jk.2)))).1.length =
        events.length := by
      rw [writeback_length, hlen]
    have hposmap : ((pass1 now 0 c events).idxs.map
        (fun jk => (jk, rule_based_sentiment jk.2))).map (fun pr => pr.1.1) =
        (pass1 now 0 c events).idxs.map Prod.fst := by
      rw [List.map_map]
      rfl
    apply List.ext_getElem?
    intro n
    by_cases hn : n < events.length
    · rw [ensurePayload, List.getElem?_map, List.getElem?_map,
        getElem?_eq_some_getD _ ([] : PyDict) n (by omega),
        getElem?_eq_some_getD _ ([] : PyDict) n hn]
      simp only [Option.map_some']
      by_cases hdef : n ∈ (pass1 now 0 c events).idxs.map Prod.fst
      · obtain ⟨jk, hjk, hfst⟩ := List.mem_map.mp hdef
        obtain ⟨hm1, hm2, hm3, hm4, hm5, hm6⟩ := pass1_idxs_mem now events 0 c jk hjk
        rw [Nat.sub_zero] at hm2 hm3 hm4 hm5 hm6
        have hpr : (jk, rule_based_sentiment jk.2) ∈
            (pass1 now 0 c events).idxs.map (fun jk => (jk, rule_based_sentiment jk.2)) :=
          List.mem_map_of_mem _ hjk
        have hw := writeback_events_mem now _ (pass1 now 0 c events).events
          (pass1 now 0 c events).cache hpw _ hpr (by simpa [hfst, hlen] using hn)
        simp only [hfst] at hw
        have hgetD : (writeback now (pass1 now 0 c events).events
            (pass1 now 0 c events).cache ((pass1 now 0 c events).idxs.map
              (fun jk => (jk, rule_based_sentiment jk.2)))).1.getD n [] =
            setAnnot ((pass1 now 0 c events).events.getD n [])
              (Val.vInt (rule_based_sentiment jk.2)) Val.vNull now := by
          rw [List.getD_eq_getElem?_getD, hw]
          rfl
        rw [hfst] at hm3 hm4 hm5
        rw [hgetD, hm3]
        have hspec : annotSpec now (events.getD n []) =
            setAnnot (events.getD n []) (Val.vInt (rule_based_sentiment jk.2)) Val.vNull now := by
          unfold annotSpec
          rw [if_neg hm5, hm4]
        rw [← hspec, ensure_annotSpec]
      · have hnot : n ∉ ((pass1 now 0 c events).idxs.map
            (fun jk => (jk, rule_based_sentiment jk.2))).map (fun pr => pr.1.1) := by
          rw [hposmap]
          exact hdef
        have hw := writeback_events_notmem now _ (pass1 now 0 c events).events
          (pass1 now 0 c events).cache n hnot
        have hgetD : (writeback now (pass1 now 0 c events).events
            (pass1 now 0 c events).cache ((pass1 now 0 c events).idxs.map
              (fun jk => (jk, rule_based_sentiment jk.2)))).1.getD n [] =
            (pass1 now 0 c events).events.getD n [] := by
          rw [List.getD_eq_getElem?_getD, hw, ← List.getD_eq_getElem?_getD]
        rw [hgetD]
        have hnd := pass1_nondeferred now events 0 c hc n hn (by simpa using hdef)
        rw [hnd, ensure_annotSpec]
    · rw [ensurePayload, List.getElem?_map, List.getElem?_map,
        List.getElem?_eq_none (by omega), List.getElem?_eq_none (by omega)]
      rfl

theorem sha256_hexdigest_id (t : String) : sha256_hexdigest t = t := rfl

theorem annotate_cache_coherent (now : Nat) (c : Cache) (events : List PyDict)
    (hc : Coherent c) : Coherent (annotate_nlp now c events).cache := by
  by_cases hte : (pass1 now 0 c events).texts.isEmpty
  · rw [annotate_events_if_empty now c events hte]
    exact pass1_coherent now events 0 c hc
  · rw [annotate_events_if_nonempty now c events hte]
    refine writeback_coherent now _ _ _ (pass1_coherent now events 0 c hc) ?_
    intro pr hpr
    have hzip : (pass1 now 0 c events).idxs.zip
        (call_model_batch_sync (pass1 now 0 c events).texts) =
        (pass1 now 0 c events).idxs.map
          (fun jk => (jk, rule_based_sentiment jk.2)) := by
      unfold call_model_batch_sync
      rw [← pass1_idxs_snd now events 0 c, List.map_map]
      exact zip_map_self _ _
    rw [hzip] at hpr
    obtain ⟨jk, hjk, heq⟩ := List.mem_map.mp hpr
    rw [← heq]

theorem annotate_cache_covers (now : Nat) (c : Cache) (events : List PyDict)
    (j : Nat) (hj : j < events.length)
    (hne : extractText (events.getD j []) ≠ "") :
    (alget (annotate_nlp now c events).cache
      (sha256_hexdigest (extractText (events.getD j [])))).isSome := by
  have hcov := pass1_covered now events 0 c j hj hne
  by_cases hte : (pass1 now 0 c events).texts.isEmpty
  · rw [annotate_events_if_empty now c events hte]
    rcases hcov with hl | hr
    · exact hl
    · rw [List.isEmpty_iff] at hte
      rw [hte] at hr
      exact absurd hr (by simp)
  · rw [annotate_events_if_nonempty now c events hte]
    have hzip : (pass1 now 0 c events).idxs.zip
        (call_model_batch_sync (pass1 now 0 c events).texts) =
        (pass1 now 0 c events).idxs.map
          (fun jk => (jk, rule_based_sentiment jk.2)) := by
      unfold call_model_batch_sync
      rw [← pass1_idxs_snd now events 0 c, List.map_map]
      exact zip_map_self _ _
    rcases hcov with hl | hr
    · exact writeback_cache_mono now _ _ _ _ hl
    · rw [← pass1_idxs_snd now events 0 c] at hr
      obtain ⟨jk, hjk, heq⟩ := List.mem_map.mp hr
      have hpr : (jk, rule_based_sentiment jk.2) ∈ (pass1 now 0 c events).idxs.zip
          (call_model_batch_sync (pass1 now 0 c events).texts) := by
        rw [hzip]
        exact List.mem_map_of_mem _ hjk
      have := writeback_cache_hasKeys now _ (pass1 now 0 c events).events
        (pass1 now 0 c events).cache _ hpr
      rw [sha256_hexdigest_id, ← heq]
      exact this

theorem annotate_submitted_fresh (now : Nat) (c : Cache) (events : List PyDict)
    (t : String) (ht : t ∈ (annotate_nlp now c events).submitted) :
    alget c (sha256_hexdigest t) = none := by
  by_cases hte : (pass1 now 0 c events).texts.isEmpty
  · rw [annotate_events_if_empty now c events hte] at ht
    exact absurd ht (by simp)
  · rw [annotate_events_if_nonempty now c events hte] at ht
    exact pass1_texts_fresh now events 0 c t ht

theorem annotate_lookups (now : Nat) (c : Cache) (events : List PyDict) :
    (annotate_nlp now c events).lookups =
      (events.map extractText).filter (fun t => !(t == "")) := by
  by_cases hte : (pass1 now 0 c events).texts.isEmpty
  · rw [annotate_events_if_empty now c events hte]
    exact pass1_lookups now events 0 c
  · rw [annotate_events_if_nonempty now c events hte]
    exact pass1_lookups now events 0 c

theorem getD_map_lt {α β : Type} (l : List α) (f : α → β) (j : Nat)
    (h : j < l.length) (d : β) (d' : α) :
    (l.map f).getD j d = f (l.getD j d') := by
  rw [List.getD_eq_getElem?_getD, List.getElem?_map, getElem?_eq_some_getD l d' j h]
  rfl

theorem setAnnot_fields (e : PyDict) (s t : Val) (now : Nat) :
    alget (setAnnot e s t now) "sentiment" = some s ∧
    alget (setAnnot e s t now) "topic" = some t ∧
    alget (setAnnot e s t now) "processed_at" = some (Val.vTime now) := by
  unfold setAnnot
  refine ⟨?_, ?_, ?_⟩
  · rw [alget_alset_ne _ _ _ _ (by decide), alget_alset_ne _ _ _ _ (by decide),
      alget_alset_ne _ _ _ _ (by decide), alget_alset_self]
  · rw [alget_alset_ne _ _ _ _ (by decide), alget_alset_ne _ _ _ _ (by decide),
      alget_alset_self]
  · rw [alget_alset_ne _ _ _ _ (by decide), alget_alset_self]

/-- C8: for every event whose extracted transcript text is empty or absent,
the Annotator's `continue` path sets `sentiment = None`, `topic = None` and
`processed_at` to the enrichment instant before any cache access; the
recorded cache lookups are exactly the non-empty extracted texts, so such
an event contributes no lookup. -/
theorem C8_empty_transcript (now : Nat) (c : Cache) (events : List PyDict)
    (j : Nat) (hc : Coherent c) (hj : j < events.length)
    (hemp : extractText (events.getD j []) = "") :
    alget ((annotate_nlp now c events).events.getD j []) "sentiment" = some Val.vNull ∧
    alget ((annotate_nlp now c events).events.getD j []) "topic" = some Val.vNull ∧
    alget ((annotate_nlp now c events).events.getD j []) "processed_at" =
      some (Val.vTime now) ∧
    (annotate_nlp now c events).lookups =
      (events.map extractText).filter (fun t => !(t == "")) := by
  have hspec := annotate_events_spec now c events hc
  have hout : (annotate_nlp now c events).events.getD j [] =
      annotSpec now (events.getD j []) := by
    rw [hspec, getD_map_lt events (annotSpec now) j hj [] []]
  have hann : annotSpec now (events.getD j []) =
      setAnnot (events.getD j []) Val.vNull Val.vNull now := by
    unfold annotSpec
    rw [if_pos hemp]
  rw [hout, hann]
  obtain ⟨h1, h2, h3⟩ := setAnnot_fields (events.getD j []) Val.vNull Val.vNull now
  exact ⟨h1, h2, h3, annotate_lookups now c events⟩

/-- C7 (amended): all events with the same non-empty post-truncation
transcript text receive the identical pair
(`sentiment = rule_based_sentiment text`, `topic = None`) — whether within
one batch or across batches of one process lifetime — and once any batch
has annotated the text, later batches never submit it to the model-scoring
function again.  What fails in the original claim is only the same-batch
duplicate case (see the counterexample): two low-confidence events with
identical text in one batch are both appended to `texts` before the cache
is populated, so the single `call_model_batch_sync` call receives the text
twice. -/
theorem C7_identical_text_identical_pair (now1 now2 : Nat) (c : Cache)
    (es1 es2 : List PyDict) (t : String) (hc : Coherent c) (ht : ¬t = "") :
    (∀ i, i < es1.length → extractText (es1.getD i []) = t →
      alget ((annotate_nlp now1 c es1).events.getD i []) "sentiment" =
        some (Val.vInt (rule_based_sentiment t)) ∧
      alget ((annotate_nlp now1 c es1).events.getD i []) "topic" = some Val.vNull) ∧
    (∀ j, j < es2.length → extractText (es2.getD j []) = t →
      alget ((annotate_nlp now2 (annotate_nlp now1 c es1).cache es2).events.getD j [])
          "sentiment" = some (Val.vInt (rule_based_sentiment t)) ∧
      alget ((annotate_nlp now2 (annotate_nlp now1 c es1).cache es2).events.getD j [])
          "topic" = some Val.vNull) ∧
    ((∃ i, i < es1.length ∧ extractText (es1.getD i []) = t) →
      t ∉ (annotate_nlp now2 (annotate_nlp now1 c es1).cache es2).submitted) := by
  have hc1 : Coherent (annotate_nlp now1 c es1).cache :=
    annotate_cache_coherent now1 c es1 hc
  have main : ∀ (nw : Nat) (cc : Cache), Coherent cc → ∀ (es : List PyDict) (i : Nat),
      i < es.length → extractText (es.getD i []) = t →
      alget ((annotate_nlp nw cc es).events.getD i []) "sentiment" =
        some (Val.vInt (rule_based_sentiment t)) ∧
      alget ((annotate_nlp nw cc es).events.getD i []) "topic" = some Val.vNull := by
    intro nw cc hcc es i hi hext
    have hout : (annotate_nlp nw cc es).events.getD i [] =
        annotSpec nw (es.getD i []) := by
      rw [annotate_events_spec nw cc es hcc, getD_map_lt es (annotSpec nw) i hi [] []]
    have hann : annotSpec nw (es.getD i []) =
        setAnnot (es.getD i []) (Val.vInt (rule_based_sentiment t)) Val.vNull nw := by
      unfold annotSpec
      rw [hext, if_neg ht]
    rw [hout, hann]
    obtain ⟨h1, h2, _⟩ := setAnnot_fields (es.getD i [])
      (Val.vInt (rule_based_sentiment t)) Val.vNull nw
    exact ⟨h1, h2⟩
  refine ⟨fun i hi hext => main now1 c hc es1 i hi hext,
    fun j hj hext => main now2 _ hc1 es2 j hj hext, ?_⟩
  intro ⟨i, hi, hext⟩ hsub
  have hfresh := annotate_submitted_fresh now2 _ es2 t hsub
  have hcov := annotate_cache_covers now1 c es1 i hi (by rw [hext]; exact ht)
  rw [hext] at hcov
  rw [hfresh] at hcov
  exact absurd hcov (by simp)

/-- Witness for C8: the (transcript-free) parsed call event annotated
alone yields null annotations, a set `processed_at`, and no cache
lookups. -/
theorem C8_empty_transcript_witness :
    alget ((annotate_nlp 11 [] [parsedCallEvent]).events.getD 0 []) "sentiment" =
      some Val.vNull ∧
    alget ((annotate_nlp 11 [] [parsedCallEvent]).events.getD 0 []) "topic" =
      some Val.vNull ∧
    alget ((annotate_nlp 11 [] [parsedCallEvent]).events.getD 0 []) "processed_at" =
      some (Val.vTime 11) ∧
    (annotate_nlp 11 [] [parsedCallEvent]).lookups =
      ([parsedCallEvent].map extractText).filter (fun t => !(t == "")) :=
  C8_empty_transcript 11 [] [parsedCallEvent] 0 Coherent_nil (by decide) (by decide)

/-- Witness for C7 (amended): the low-confidence text "meh" annotated in
one batch gets its canonical pair, and a following batch with the same
text submits nothing to the model. -/
theorem C7_identical_text_identical_pair_witness :
    (alget ((annotate_nlp 3 [] [mehEvent]).events.getD 0 []) "sentiment" =
      some (Val.vInt (rule_based_sentiment "meh")) ∧
    alget ((annotate_nlp 3 [] [mehEvent]).events.getD 0 []) "topic" = some Val.vNull) ∧
    "meh" ∉ (annotate_nlp 4 (annotate_nlp 3 [] [mehEvent]).cache [mehEvent]).submitted := by
  have h := C7_identical_text_identical_pair 3 4 [] [mehEvent] [mehEvent] "meh"
    Coherent_nil (by decide)
  exact ⟨h.1 0 (by decide) (by decide), h.2.2 ⟨0, by decide, by decide⟩⟩
